import Mathlib

/-!
Verification development for the StableLungsSegmentation training pipeline.

Shallow embedding of the repository's core logic:
* `utils.py`            — batch generator (`get_scans_and_labels_batches`)
* `train_pipeline.py`   — slice index builder (`get_train_valid_indices`) and
                          the epoch / early-stopping driver (`train`)
* `losses.py`           — `NegDiceLoss.forward`, `FocalLoss.forward`
* `src/model/utils.py`  — `hausdorff_distance`, `average_hausdorff_distance`

Machine floats of the source are modelled by exact rationals (`ℚ`); file
system and torch externals (array loads, the network, the optimizer, the
random shuffle) are parameters of the corresponding Lean functions.
-/

namespace LungsSeg

/-! ## Generic list helpers -/

/-- Group a list into consecutive chunks.  The accumulator holds the current
chunk in reverse; a chunk is emitted as soon as it reaches size `k`, and a
non-empty trailing chunk is emitted at the end.  This mirrors the batching
loop in `utils.py:get_scans_and_labels_batches` (append to the current batch,
yield when `(en_ix + 1) % batch_size == 0`, flush the remainder), where the
counter test fires exactly when the current chunk reaches size `k`. -/
def chunksAux (k : Nat) : List α → List α → List (List α)
  | acc, [] => if acc.isEmpty then [] else [acc.reverse]
  | acc, x :: xs =>
      if (x :: acc).length = k then (x :: acc).reverse :: chunksAux k [] xs
      else chunksAux k (x :: acc) xs

/-- `chunksOf k l` splits `l` into chunks of size `k` (last chunk may be
shorter). -/
def chunksOf (k : Nat) (l : List α) : List (List α) := chunksAux k [] l

/-- Split a list of triples into three parallel lists, the way the Python
loop builds `scans_batch`, `labels_batch`, `ix_batch` side by side. -/
def unzip3 (l : List (α × β × γ)) : List α × List β × List γ :=
  (l.map (·.1), l.map (·.2.1), l.map (·.2.2))

theorem chunksAux_nil (k : Nat) (acc : List α) :
    chunksAux k acc [] = if acc.isEmpty then [] else [acc.reverse] := rfl

theorem chunksAux_cons (k : Nat) (acc : List α) (x : α) (xs : List α) :
    chunksAux k acc (x :: xs)
      = if (x :: acc).length = k then (x :: acc).reverse :: chunksAux k [] xs
        else chunksAux k (x :: acc) xs := rfl

theorem chunksAux_flatten (k : Nat) :
    ∀ (l acc : List α), (chunksAux k acc l).flatten = acc.reverse ++ l := by
  intro l
  induction l with
  | nil =>
      intro acc
      rw [chunksAux_nil]
      by_cases h : acc.isEmpty
      · rw [if_pos h]
        simp [List.isEmpty_iff.mp h]
      · rw [if_neg h]
        simp
  | cons x xs ih =>
      intro acc
      rw [chunksAux_cons]
      by_cases h : (x :: acc).length = k
      · rw [if_pos h]
        simp [ih]
      · rw [if_neg h]
        simpa using ih (x :: acc)

theorem chunksOf_flatten (k : Nat) (l : List α) : (chunksOf k l).flatten = l := by
  simp [chunksOf, chunksAux_flatten]

theorem chunksAux_sizes (k : Nat) (hk : 0 < k) :
    ∀ (l acc : List α), acc.length < k →
      (∀ b ∈ (chunksAux k acc l).dropLast, b.length = k) ∧
      (∀ b ∈ (chunksAux k acc l).getLast?, 1 ≤ b.length ∧ b.length ≤ k) := by
  intro l
  induction l with
  | nil =>
      intro acc hacc
      rw [chunksAux_nil]
      by_cases h : acc.isEmpty
      · rw [if_pos h]; simp
      · rw [if_neg h]
        refine ⟨by simp, ?_⟩
        intro b hb
        simp at hb
        subst hb
        have hne : acc ≠ [] := fun hc => h (by simp [hc])
        constructor
        · simpa [Nat.one_le_iff_ne_zero, List.length_eq_zero] using hne
        · simpa using Nat.le_of_lt hacc
  | cons x xs ih =>
      intro acc hacc
      rw [chunksAux_cons]
      by_cases h : (x :: acc).length = k
      · rw [if_pos h]
        have hrest := ih [] (by simpa using hk)
        cases hr : chunksAux k [] xs with
        | nil =>
            refine ⟨by simp, ?_⟩
            intro b hb
            simp at hb
            subst hb
            exact ⟨by simp, by simpa using Nat.le_of_eq h⟩
        | cons r rs =>
            rw [hr] at hrest
            constructor
            · intro b hb
              rw [List.dropLast_cons₂] at hb
              rcases List.mem_cons.mp hb with hb | hb
              · subst hb; simpa using h
              · exact hrest.1 b hb
            · intro b hb
              rw [List.getLast?_cons_cons] at hb
              exact hrest.2 b hb
      · rw [if_neg h]
        have hlt : (x :: acc).length < k :=
          lt_of_le_of_ne (Nat.succ_le_of_lt hacc) h
        exact ih (x :: acc) hlt

/-! ## Batch generator (`utils.py`, `get_scans_and_labels_batches`)

The generator's externals are parameters:
* `shuffleFn` models `np.random.shuffle` — it produces the order the list
  holds after the in-place shuffle (a permutation of the input);
* `loadScan` / `loadLabel` model the per-index storage fetch
  `np.load(os.path.join(dp, fn))[:, :, z]` for the scans / labels directory.

The Python function mutates its `indices` argument in place when
`to_shuffle` is true; the model makes that frame effect explicit by
returning, next to the yielded elements, the final contents of the caller's
`indices` list. -/

/-- Output of one full pass over the generator: with a positive
`batch_size` it yields triples of parallel lists
`(scans_batch, labels_batch, ix_batch)`; with `batch_size=None` (or a
non-positive value) it yields one `(scan, label, index)` triple at a time. -/
inductive GenOut (α ι : Type) : Type
  | batched : List (List α × List α × List ι) → GenOut α ι
  | singles : List (α × α × ι) → GenOut α ι
  deriving DecidableEq

/-- `get_scans_and_labels_batches` from `utils.py` (lines 128–158).
Returns `(final contents of the caller's indices list, yielded elements)`. -/
def get_scans_and_labels_batches (shuffleFn : List ι → List ι)
    (loadScan loadLabel : ι → α) (indices : List ι)
    (batch_size : Option Int) (to_shuffle : Bool) :
    List ι × GenOut α ι :=
  let indices' := if to_shuffle then shuffleFn indices else indices
  let triples := indices'.map (fun i => (loadScan i, loadLabel i, i))
  match batch_size with
  | some k =>
      if 0 < k then (indices', .batched ((chunksOf k.toNat triples).map unzip3))
      else (indices', .singles triples)
  | none => (indices', .singles triples)

theorem chunksAux_mem (k : Nat) :
    ∀ (l acc c : List α), c ∈ chunksAux k acc l → ∀ v ∈ c, v ∈ acc ∨ v ∈ l := by
  intro l
  induction l with
  | nil =>
      intro acc c hc v hv
      rw [chunksAux_nil] at hc
      by_cases h : acc.isEmpty
      · rw [if_pos h] at hc; simp at hc
      · rw [if_neg h] at hc
        simp at hc
        subst hc
        simp at hv
        exact Or.inl hv
  | cons x xs ih =>
      intro acc c hc v hv
      rw [chunksAux_cons] at hc
      by_cases h : (x :: acc).length = k
      · rw [if_pos h] at hc
        rcases List.mem_cons.mp hc with hc | hc
        · subst hc
          simp at hv
          rcases hv with hv | hv
          · exact Or.inl hv
          · exact Or.inr (by simp [hv])
        · rcases ih [] c hc v hv with hcase | hcase
          · simp at hcase
          · exact Or.inr (by simp [hcase])
      · rw [if_neg h] at hc
        rcases ih (x :: acc) c hc v hv with hcase | hcase
        · rcases List.mem_cons.mp hcase with hx | hx
          · exact Or.inr (by simp [hx])
          · exact Or.inl hx
        · exact Or.inr (by simp [hcase])

theorem chunksOf_mem (k : Nat) (l c : List α) (hc : c ∈ chunksOf k l) :
    ∀ v ∈ c, v ∈ l := by
  intro v hv
  rcases chunksAux_mem k l [] c hc v hv with h | h
  · simp at h
  · exact h

theorem mem_dropLast_or_getLast? (l : List α) (b : α) (hb : b ∈ l) :
    b ∈ l.dropLast ∨ l.getLast? = some b := by
  induction l with
  | nil => simp at hb
  | cons x xs ih =>
      cases xs with
      | nil =>
          simp at hb
          subst hb
          simp
      | cons y ys =>
          rcases List.mem_cons.mp hb with h | h
          · subst h
            left
            rw [List.dropLast_cons₂]
            exact List.mem_cons_self _ _
          · rcases ih h with h2 | h2
            · left
              rw [List.dropLast_cons₂]
              exact List.mem_cons_of_mem _ h2
            · right
              rw [List.getLast?_cons_cons]
              exact h2

/-- C5: with `shuffle=False` and a positive batch size `S`, the generator is
a pure function of its inputs (independent of the random-shuffle collaborator),
the concatenation of the yielded index batches is the input list in its
original order, each batch's scan/label lists are the loads of its index list,
and every batch has exactly `S` elements except possibly the last, which has
between `1` and `S`. -/
theorem unshuffled_batches_deterministic_cover
    (S : Int) (hS : 0 < S) (shuffleFn shuffleFn' : List ι → List ι)
    (loadScan loadLabel : ι → α) (indices : List ι) :
    get_scans_and_labels_batches shuffleFn loadScan loadLabel indices (some S) false
        = get_scans_and_labels_batches shuffleFn' loadScan loadLabel indices (some S) false
    ∧ (get_scans_and_labels_batches shuffleFn loadScan loadLabel indices (some S) false).2
        = GenOut.batched ((chunksOf S.toNat
            (indices.map (fun i => (loadScan i, loadLabel i, i)))).map unzip3)
    ∧ (((chunksOf S.toNat (indices.map (fun i => (loadScan i, loadLabel i, i)))).map
          unzip3).map (·.2.2)).flatten = indices
    ∧ (∀ b ∈ (chunksOf S.toNat
          (indices.map (fun i => (loadScan i, loadLabel i, i)))).map unzip3,
        b.1 = b.2.2.map loadScan ∧ b.2.1 = b.2.2.map loadLabel
          ∧ 1 ≤ b.2.2.length ∧ b.2.2.length ≤ S.toNat)
    ∧ (∀ b ∈ ((chunksOf S.toNat
          (indices.map (fun i => (loadScan i, loadLabel i, i)))).map unzip3).dropLast,
        b.2.2.length = S.toNat) := by
  have hSnat : 0 < S.toNat := by omega
  have hsz := chunksAux_sizes S.toNat hSnat
      (indices.map (fun i => (loadScan i, loadLabel i, i))) [] (by simpa using hSnat)
  refine ⟨rfl, ?_, ?_, ?_, ?_⟩
  · simp only [get_scans_and_labels_batches]
    rw [if_pos hS]
    simp
  · rw [List.map_map]
    rw [show ((·.2.2 : List α × List α × List ι → List ι) ∘ unzip3)
        = fun c : List (α × α × ι) => c.map (·.2.2) from rfl]
    rw [← List.map_flatten, chunksOf_flatten, List.map_map]
    show List.map id indices = indices
    exact List.map_id indices
  · intro b hb
    rcases List.mem_map.mp hb with ⟨c, hc, hbc⟩
    subst hbc
    have hcl := chunksOf_mem _ _ _ hc
    have hlen : (unzip3 c).2.2.length = c.length := by simp [unzip3]
    refine ⟨?_, ?_, ?_, ?_⟩
    · show c.map (·.1) = (c.map (·.2.2)).map loadScan
      rw [List.map_map]
      refine List.map_congr_left ?_
      intro v hv
      rcases List.mem_map.mp (hcl v hv) with ⟨i, _, hi⟩
      subst hi
      rfl
    · show c.map (·.2.1) = (c.map (·.2.2)).map loadLabel
      rw [List.map_map]
      refine List.map_congr_left ?_
      intro v hv
      rcases List.mem_map.mp (hcl v hv) with ⟨i, _, hi⟩
      subst hi
      rfl
    · rw [hlen]
      rcases mem_dropLast_or_getLast? _ _ hc with h | h
      · rw [hsz.1 c h]; exact hSnat
      · exact (hsz.2 c h).1
    · rw [hlen]
      rcases mem_dropLast_or_getLast? _ _ hc with h | h
      · exact le_of_eq (hsz.1 c h)
      · exact (hsz.2 c h).2
  · intro b hb
    rw [← List.map_dropLast] at hb
    rcases List.mem_map.mp hb with ⟨c, hc, hbc⟩
    subst hbc
    have : (unzip3 c).2.2.length = c.length := by simp [unzip3]
    rw [this]
    exact hsz.1 c hc

/-- Witness for C5: a concrete pass with `S = 2` over three indices,
evaluated fully. -/
theorem unshuffled_batches_deterministic_cover_witness :
    (get_scans_and_labels_batches (fun l => l) (· + 10) (· + 20)
        [0, 1, 2] (some 2) false).2
      = GenOut.batched [([10, 11], [20, 21], [0, 1]), ([12], [22], [2])] := by
  have h := unshuffled_batches_deterministic_cover 2 (by decide)
      (fun l => l) (fun l => l) (· + 10) (· + 20) [0, 1, 2]
  exact h.2.1.trans (by decide)

/-- C10: the generator's in-place shuffle is observable to the caller.  With
`to_shuffle=True` the caller's `indices` list ends up equal to the shuffled
order (a permutation of the original contents); with `to_shuffle=False` it is
left unchanged.  The first component of the model's result is the final
contents of the caller's list. -/
theorem shuffle_frame_effect_on_indices (shuffleFn : List ι → List ι)
    (hsf : ∀ l : List ι, (shuffleFn l).Perm l)
    (loadScan loadLabel : ι → α) (indices : List ι) (batch_size : Option Int) :
    (get_scans_and_labels_batches shuffleFn loadScan loadLabel indices
        batch_size true).1 = shuffleFn indices
    ∧ ((get_scans_and_labels_batches shuffleFn loadScan loadLabel indices
        batch_size true).1).Perm indices
    ∧ (get_scans_and_labels_batches shuffleFn loadScan loadLabel indices
        batch_size false).1 = indices := by
  have h1 : (get_scans_and_labels_batches shuffleFn loadScan loadLabel indices
      batch_size true).1 = shuffleFn indices := by
    cases batch_size with
    | none => rfl
    | some k =>
        simp only [get_scans_and_labels_batches]
        by_cases hk : 0 < k
        · rw [if_pos hk]
          simp
        · rw [if_neg hk]
          simp
  have h3 : (get_scans_and_labels_batches shuffleFn loadScan loadLabel indices
      batch_size false).1 = indices := by
    cases batch_size with
    | none => rfl
    | some k =>
        simp only [get_scans_and_labels_batches]
        by_cases hk : 0 < k
        · rw [if_pos hk]
          simp
        · rw [if_neg hk]
          simp
  exact ⟨h1, h1 ▸ hsf indices, h3⟩

/-- Witness for C10: reversing as the concrete shuffle over `[1, 2, 3]`. -/
theorem shuffle_frame_effect_on_indices_witness :
    (get_scans_and_labels_batches (fun l => l.reverse) (· + 10) (· + 20)
        [1, 2, 3] (some 2) true).1 = List.reverse [1, 2, 3]
    ∧ ((get_scans_and_labels_batches (fun l => l.reverse) (· + 10) (· + 20)
        [1, 2, 3] (some 2) true).1).Perm [1, 2, 3]
    ∧ (get_scans_and_labels_batches (fun l => l.reverse) (· + 10) (· + 20)
        [1, 2, 3] (some 2) false).1 = [1, 2, 3] :=
  shuffle_frame_effect_on_indices (fun l => l.reverse)
    (fun l => l.reverse_perm) (· + 10) (· + 20) [1, 2, 3] (some 2)

/-! ## Slice index builder (`train_pipeline.py`, `get_train_valid_indices`)

Externals as parameters: `scans_fns` / `labels_fns` model the sorted
directory listings of the `scans` and `labels` folders; `z` models the
`scans_z` mapping from volume filename to its z-dimension (whose keys are
exactly the scan filenames); `fns_train` / `fns_valid` model the split
produced by `train_test_split` or loaded from the persisted split files. -/

/-- Errors raised by the index builder: the `ValueError` carries the
symmetric difference of the scan/label id sets that its message reports;
`assertionError` models the `assert` statement aborting the process. -/
inductive IndexErr : Type
  | valueError (sd : List String) : IndexErr
  | assertionError : IndexErr
  deriving DecidableEq

/-- The symmetric difference
`set(scans_fns).symmetric_difference(set(labels_fns))`, as the list of
elements belonging to exactly one side. -/
def symmDiff (a b : List String) : List String :=
  a.filter (fun s => decide (s ∉ b)) ++ b.filter (fun s => decide (s ∉ a))

/-- Expansion of a list of volume filenames into `(filename, z)` slice
indices: `[(fn, z) for fn in fns for z in range(scans_z[fn])]`. -/
def expandIndices (fns : List String) (z : String → Nat) :
    List (String × Nat) :=
  fns.flatMap (fun fn => (List.range (z fn)).map (fun k => (fn, k)))

/-- `get_train_valid_indices` from `train_pipeline.py` (lines 30–75):
check that scan and label filename sets match (else `ValueError` reporting
the symmetric difference), expand the train and valid volume lists into
slice indices, and `assert n_train + n_valid == n_slices_total`. -/
def get_train_valid_indices (scans_fns labels_fns : List String)
    (z : String → Nat) (fns_train fns_valid : List String) :
    Except IndexErr (List (String × Nat) × List (String × Nat)) :=
  let sd := symmDiff scans_fns labels_fns
  if sd.length ≠ 0 then .error (.valueError sd)
  else
    let n_slices_total := (scans_fns.map z).sum
    let indices_train := expandIndices fns_train z
    let indices_valid := expandIndices fns_valid z
    if indices_train.length + indices_valid.length = n_slices_total then
      .ok (indices_train, indices_valid)
    else .error .assertionError

theorem length_expandIndices (fns : List String) (z : String → Nat) :
    (expandIndices fns z).length = (fns.map z).sum := by
  induction fns with
  | nil => rfl
  | cons fn rest ih =>
      simp [expandIndices, List.flatMap] at ih ⊢
      omega

/-- C4: for every valid train/valid split (the two halves together are a
permutation of the scan filename list) of a dataset whose scan and label id
sets match, the builder succeeds and the produced index lists satisfy
`len(train) + len(valid) = total slice count`; any split violating the
count invariant makes the builder abort with the assertion error instead of
returning indices. -/
theorem index_builder_count_invariant (scans_fns labels_fns : List String)
    (z : String → Nat) (fns_train fns_valid : List String)
    (hmatch : symmDiff scans_fns labels_fns = [])
    (hsplit : (fns_train ++ fns_valid).Perm scans_fns) :
    get_train_valid_indices scans_fns labels_fns z fns_train fns_valid
        = .ok (expandIndices fns_train z, expandIndices fns_valid z)
    ∧ (expandIndices fns_train z).length + (expandIndices fns_valid z).length
        = (scans_fns.map z).sum
    ∧ (∀ ft fv : List String,
        (expandIndices ft z).length + (expandIndices fv z).length
            ≠ (scans_fns.map z).sum →
          get_train_valid_indices scans_fns labels_fns z ft fv
            = .error .assertionError) := by
  have hsum : (expandIndices fns_train z).length
      + (expandIndices fns_valid z).length = (scans_fns.map z).sum := by
    rw [length_expandIndices, length_expandIndices]
    have hperm : ((fns_train ++ fns_valid).map z).Perm (scans_fns.map z) :=
      hsplit.map z
    have := hperm.sum_eq
    rw [List.map_append, List.sum_append] at this
    exact this
  refine ⟨?_, hsum, ?_⟩
  · simp only [get_train_valid_indices, hmatch]
    simp [hsum]
  · intro ft fv hne
    simp only [get_train_valid_indices, hmatch]
    simp [hne]

/-- Witness for C4: two volumes with 2 and 3 slices, one in each half. -/
theorem index_builder_count_invariant_witness :
    get_train_valid_indices ["a", "b"] ["a", "b"]
        (fun fn => if fn = "a" then 2 else 3) ["a"] ["b"]
      = .ok ([("a", 0), ("a", 1)], [("b", 0), ("b", 1), ("b", 2)]) := by
  have h := index_builder_count_invariant ["a", "b"] ["a", "b"]
      (fun fn => if fn = "a" then 2 else 3) ["a"] ["b"]
      (by decide) (by decide)
  exact h.1.trans (by rfl)

/-- C9: when the scan id set and the label id set differ, the builder fails
immediately with the `ValueError` whose payload is the symmetric difference
of the two sets, and produces no index lists. -/
theorem mismatched_ids_value_error (scans_fns labels_fns : List String)
    (z : String → Nat) (fns_train fns_valid : List String)
    (hne : scans_fns.toFinset ≠ labels_fns.toFinset) :
    symmDiff scans_fns labels_fns ≠ []
    ∧ get_train_valid_indices scans_fns labels_fns z fns_train fns_valid
        = .error (.valueError (symmDiff scans_fns labels_fns)) := by
  have hsd : symmDiff scans_fns labels_fns ≠ [] := by
    intro hempty
    apply hne
    have h1 : ∀ s ∈ scans_fns, s ∈ labels_fns := by
      intro s hs
      by_contra hcon
      have : s ∈ symmDiff scans_fns labels_fns := by
        simp [symmDiff, List.mem_filter, hs, hcon]
      rw [hempty] at this
      simp at this
    have h2 : ∀ s ∈ labels_fns, s ∈ scans_fns := by
      intro s hs
      by_contra hcon
      have : s ∈ symmDiff scans_fns labels_fns := by
        simp [symmDiff, List.mem_filter, hs, hcon]
      rw [hempty] at this
      simp at this
    ext s
    simp only [List.mem_toFinset]
    exact ⟨h1 s, h2 s⟩
  refine ⟨hsd, ?_⟩
  simp only [get_train_valid_indices]
  have : (symmDiff scans_fns labels_fns).length ≠ 0 := by
    simpa [List.length_eq_zero] using hsd
  simp [this]

/-- Witness for C9: scans `["a"]` against labels `["b"]`. -/
theorem mismatched_ids_value_error_witness :
    symmDiff ["a"] ["b"] ≠ []
    ∧ get_train_valid_indices ["a"] ["b"] (fun _ => 1) ["a"] []
        = .error (.valueError (symmDiff ["a"] ["b"])) :=
  mismatched_ids_value_error ["a"] ["b"] (fun _ => 1) ["a"] [] (by decide)

/-! ## Loss functions (`losses.py`)

A torch tensor is modelled by its shape, its device and its flattened
(row-major) rational data.  `PyObj` distinguishes a tensor argument from a
non-tensor one, for the `torch.is_tensor(input)` check; the source never
applies `torch.is_tensor` to `target`, so the model types the target as a
bare `Tensor` (only its `.shape[-2:]` and `.device` attributes are ever
read by the validation code). -/

structure Tensor : Type where
  shape : List Nat
  device : String
  data : List ℚ
  deriving DecidableEq

inductive PyObj : Type
  | tensor (t : Tensor) : PyObj
  | nonTensor : PyObj
  deriving DecidableEq

/-- Error kinds raised by the loss validations. -/
inductive TErr : Type
  | typeError : TErr
  | valueError : TErr
  | notImplementedError : TErr
  deriving DecidableEq

/-- Python `s[-2:]` on a shape list. -/
def lastTwo (s : List Nat) : List Nat := s.drop (s.length - 2)

/-- The validation prologue shared verbatim by `NegDiceLoss.forward`
(`losses.py` lines 18–30): `torch.is_tensor(input)` else `TypeError`;
`len(input.shape) == 4` else `ValueError`;
`input.shape[-2:] == target.shape[-2:]` else `ValueError`;
`input.device == target.device` else `ValueError`.  Returns the first
error hit, `none` if validation passes. -/
def negDiceChecks (input : PyObj) (target : Tensor) : Option TErr :=
  match input with
  | .nonTensor => some .typeError
  | .tensor ti =>
      if ti.shape.length ≠ 4 then some .valueError
      else if lastTwo ti.shape ≠ lastTwo target.shape then some .valueError
      else if ti.device ≠ target.device then some .valueError
      else none

/-- The identical validation prologue of `FocalLoss.forward`
(`losses.py` lines 58–70). -/
def focalChecks (input : PyObj) (target : Tensor) : Option TErr :=
  match input with
  | .nonTensor => some .typeError
  | .tensor ti =>
      if ti.shape.length ≠ 4 then some .valueError
      else if lastTwo ti.shape ≠ lastTwo target.shape then some .valueError
      else if ti.device ≠ target.device then some .valueError
      else none

/-- `self.eps` of `NegDiceLoss` (`1e-6`). -/
def negDiceEps : ℚ := 1 / 1000000

/-- The computation of `NegDiceLoss.forward` (`losses.py` lines 32–38) for
same-shaped `BxCxHxW` tensors: per-sample (`dims = (1, 2, 3)`) intersection
`sum(input * target)` and cardinality `sum(input + target)`, per-sample
dice score `2 * intersection / (cardinality + eps)`, result
`-mean(dice_score)` over the batch.  Samples are the consecutive
`C*H*W`-sized chunks of the flattened data. -/
def negDiceScore (input target : Tensor) : ℚ :=
  let chw := (input.shape.drop 1).prod
  let iChunks := chunksOf chw input.data
  let tChunks := chunksOf chw target.data
  let dice := List.zipWith
    (fun a b => 2 * (List.zipWith (· * ·) a b).sum
      / ((List.zipWith (· + ·) a b).sum + negDiceEps)) iChunks tChunks
  let negMean : ℚ := -(dice.sum / (dice.length : ℚ))
  negMean

/-- `NegDiceLoss.forward`: validation then computation. -/
def negDiceForward (input : PyObj) (target : Tensor) : Except TErr ℚ :=
  match negDiceChecks input target with
  | some e => .error e
  | none =>
      match input with
      | .tensor ti => .ok (negDiceScore ti target)
      | .nonTensor => .error .typeError

/-! ### C6 — input validation of the registered metrics -/

/-- C6 counterexample: a rank-3 **target** tensor with matching trailing
spatial dimensions and device passes the validation of both `NegDiceLoss`
and `FocalLoss` — the sources check `len(input.shape) == 4` for the
prediction only and never validate the target's type or rank, so the claim
that both operands are validated to be rank-4 tensors fails. -/
theorem rank3_target_passes_validation :
    negDiceChecks (.tensor ⟨[1, 1, 1, 1], "cuda:0", [1]⟩)
        ⟨[1, 1, 1], "cuda:0", [1]⟩ = none
    ∧ focalChecks (.tensor ⟨[1, 1, 1, 1], "cuda:0", [1]⟩)
        ⟨[1, 1, 1], "cuda:0", [1]⟩ = none
    ∧ ([1, 1, 1] : List Nat).length ≠ 4 := by
  refine ⟨by decide, by decide, by decide⟩

/-- C6 amended: `NegDiceLoss.forward` and `FocalLoss.forward` validate — in
order, before any computation — that the **prediction** is a tensor
(`TypeError` otherwise) and rank-4 (`ValueError` otherwise), that the last
two dimensions of prediction and target match (`ValueError` otherwise), and
that both reside on the same device (`ValueError` otherwise); when all four
checks pass no error is raised.  The target's own type and rank are not
independently validated. -/
theorem loss_validation_kinds (t ti : Tensor) :
    (negDiceChecks .nonTensor t = some .typeError
      ∧ focalChecks .nonTensor t = some .typeError)
    ∧ (ti.shape.length ≠ 4 →
        negDiceChecks (.tensor ti) t = some .valueError
          ∧ focalChecks (.tensor ti) t = some .valueError)
    ∧ (ti.shape.length = 4 → lastTwo ti.shape ≠ lastTwo t.shape →
        negDiceChecks (.tensor ti) t = some .valueError
          ∧ focalChecks (.tensor ti) t = some .valueError)
    ∧ (ti.shape.length = 4 → lastTwo ti.shape = lastTwo t.shape →
        ti.device ≠ t.device →
        negDiceChecks (.tensor ti) t = some .valueError
          ∧ focalChecks (.tensor ti) t = some .valueError)
    ∧ (ti.shape.length = 4 → lastTwo ti.shape = lastTwo t.shape →
        ti.device = t.device →
        negDiceChecks (.tensor ti) t = none
          ∧ focalChecks (.tensor ti) t = none
          ∧ negDiceForward (.tensor ti) t = .ok (negDiceScore ti t)) := by
  refine ⟨⟨rfl, rfl⟩, ?_, ?_, ?_, ?_⟩
  · intro h4
    constructor <;> simp [negDiceChecks, focalChecks, h4]
  · intro h4 hsp
    constructor <;> simp [negDiceChecks, focalChecks, h4, hsp]
  · intro h4 hsp hdev
    constructor <;> simp [negDiceChecks, focalChecks, h4, hsp, hdev]
  · intro h4 hsp hdev
    have hchecks : negDiceChecks (.tensor ti) t = none := by
      simp [negDiceChecks, h4, hsp, hdev]
    refine ⟨hchecks, by simp [focalChecks, h4, hsp, hdev], ?_⟩
    simp [negDiceForward, hchecks]

/-- Witness for C6 (amended): each error kind and the all-pass case, at
concrete tensors. -/
theorem loss_validation_kinds_witness :
    negDiceChecks .nonTensor ⟨[1, 1, 2, 2], "cpu", [1]⟩ = some .typeError
    ∧ negDiceChecks (.tensor ⟨[2, 2], "cpu", [1]⟩)
        ⟨[1, 1, 2, 2], "cpu", [1]⟩ = some .valueError
    ∧ negDiceChecks (.tensor ⟨[1, 1, 2, 2], "cpu", [1]⟩)
        ⟨[1, 1, 3, 3], "cpu", [1]⟩ = some .valueError
    ∧ negDiceChecks (.tensor ⟨[1, 1, 2, 2], "cpu", [1]⟩)
        ⟨[1, 1, 2, 2], "cuda:0", [1]⟩ = some .valueError
    ∧ negDiceChecks (.tensor ⟨[1, 1, 2, 2], "cpu", [1]⟩)
        ⟨[1, 1, 2, 2], "cpu", [1]⟩ = none := by
  refine ⟨(loss_validation_kinds ⟨[1, 1, 2, 2], "cpu", [1]⟩
      ⟨[1, 1, 2, 2], "cpu", [1]⟩).1.1, ?_, ?_, ?_, ?_⟩
  · exact ((loss_validation_kinds ⟨[1, 1, 2, 2], "cpu", [1]⟩
      ⟨[2, 2], "cpu", [1]⟩).2.1 (by decide)).1
  · exact ((loss_validation_kinds ⟨[1, 1, 3, 3], "cpu", [1]⟩
      ⟨[1, 1, 2, 2], "cpu", [1]⟩).2.2.1 (by decide) (by decide)).1
  · exact ((loss_validation_kinds ⟨[1, 1, 2, 2], "cuda:0", [1]⟩
      ⟨[1, 1, 2, 2], "cpu", [1]⟩).2.2.2.1 (by decide) (by decide) (by decide)).1
  · exact ((loss_validation_kinds ⟨[1, 1, 2, 2], "cpu", [1]⟩
      ⟨[1, 1, 2, 2], "cpu", [1]⟩).2.2.2.2 (by decide) (by decide) rfl).1

/-! ### C7 — NegDice value on a perfect overlap -/

theorem binary_zipWith_mul_sum (c : List ℚ) (hbin : ∀ v ∈ c, v = 0 ∨ v = 1) :
    (List.zipWith (· * ·) c c).sum = c.sum := by
  rw [List.zipWith_same]
  induction c with
  | nil => simp
  | cons v rest ih =>
      have hv := hbin v (by simp)
      have hrest := ih (fun w hw => hbin w (by simp [hw]))
      rcases hv with hv | hv <;> simp [hv, hrest]

theorem zipWith_add_self_sum (c : List ℚ) :
    (List.zipWith (· + ·) c c).sum = 2 * c.sum := by
  rw [List.zipWith_same]
  induction c with
  | nil => simp
  | cons v rest ih =>
      simp [ih]
      ring

theorem binary_mem_sum_ge_one (c : List ℚ) (hbin : ∀ v ∈ c, v = 0 ∨ v = 1)
    (hone : (1 : ℚ) ∈ c) : 1 ≤ c.sum := by
  refine List.single_le_sum ?_ 1 hone
  intro v hv
  rcases hbin v hv with h | h <;> simp [h]

theorem dice_term_bounds (s : ℚ) (hs : 1 ≤ s) :
    1 - negDiceEps < 2 * s / (2 * s + negDiceEps)
    ∧ 2 * s / (2 * s + negDiceEps) < 1 := by
  have heps : negDiceEps = 1 / 1000000 := rfl
  have hpos : 0 < 2 * s + negDiceEps := by rw [heps]; linarith
  constructor
  · rw [lt_div_iff₀ hpos, heps]
    nlinarith
  · rw [div_lt_one hpos, heps]
    linarith

theorem mean_bounds (l : List ℚ) (hne : l ≠ []) (lo hi : ℚ)
    (hb : ∀ v ∈ l, lo < v ∧ v < hi) :
    lo < l.sum / l.length ∧ l.sum / l.length < hi := by
  have hlen : 0 < (l.length : ℚ) := by
    have : 0 < l.length := List.length_pos.mpr hne
    exact_mod_cast this
  have hlosum : ∀ m : List ℚ, (∀ v ∈ m, lo < v ∧ v < hi) →
      lo * m.length ≤ m.sum ∧ m.sum ≤ hi * m.length := by
    intro m
    induction m with
    | nil => intro _; simp
    | cons v rest ih =>
        intro hm
        have hv := hm v (by simp)
        have hr := ih (fun w hw => hm w (by simp [hw]))
        constructor
        · simp only [List.sum_cons, List.length_cons]
          push_cast
          nlinarith [hr.1, hv.1]
        · simp only [List.sum_cons, List.length_cons]
          push_cast
          nlinarith [hr.2, hv.2]
  cases l with
  | nil => exact absurd rfl hne
  | cons v rest =>
      have hv := hb v (by simp)
      have hr := hlosum rest (fun w hw => hb w (by simp [hw]))
      constructor
      · rw [lt_div_iff₀ hlen]
        simp only [List.sum_cons, List.length_cons]
        push_cast
        nlinarith [hr.1, hv.1]
      · rw [div_lt_iff₀ hlen]
        simp only [List.sum_cons, List.length_cons]
        push_cast
        nlinarith [hr.2, hv.2]

/-- C7 counterexample: a perfect overlap (prediction equal to its binary
target, one foreground pixel) does **not** score exactly `-1`: the epsilon
in the denominator makes the per-sample dice `2/(2 + 1e-6)`, so the
returned value is `-2000000/2000001 ≠ -1`. -/
theorem negdice_identity_not_exactly_neg_one :
    negDiceForward (.tensor ⟨[1, 1, 1, 1], "cpu", [1]⟩)
        ⟨[1, 1, 1, 1], "cpu", [1]⟩ = .ok (-(2000000 / 2000001 : ℚ))
    ∧ -(2000000 / 2000001 : ℚ) ≠ -1 := by
  constructor
  · have hchecks : negDiceChecks (.tensor ⟨[1, 1, 1, 1], "cpu", [1]⟩)
        ⟨[1, 1, 1, 1], "cpu", [1]⟩ = none := by decide
    simp only [negDiceForward, hchecks]
    refine congrArg Except.ok ?_
    norm_num [negDiceScore, chunksOf, chunksAux, negDiceEps]
  · norm_num

/-- C7 amended: for any rank-4 prediction equal to its binary target whose
every sample has a non-empty mask, `NegDiceLoss.forward` succeeds and
returns a value strictly between `-1` and `-1 + ε` (with `ε = 1e-6`): the
score approaches but never equals `-1` exactly. -/
theorem negdice_identity_within_eps_of_neg_one (t : Tensor)
    (h4 : t.shape.length = 4)
    (hne : t.data ≠ [])
    (hbin : ∀ v ∈ t.data, v = 0 ∨ v = 1)
    (hmask : ∀ c ∈ chunksOf ((t.shape.drop 1).prod) t.data, (1 : ℚ) ∈ c) :
    negDiceForward (.tensor t) t = .ok (negDiceScore t t)
    ∧ -1 < negDiceScore t t
    ∧ negDiceScore t t < -1 + negDiceEps := by
  have hchecks : negDiceChecks (.tensor t) t = none := by
    simp [negDiceChecks, h4]
  have hfwd : negDiceForward (.tensor t) t = .ok (negDiceScore t t) := by
    simp [negDiceForward, hchecks]
  set chw := (t.shape.drop 1).prod with hchw
  set C := chunksOf chw t.data with hC
  have hCne : C ≠ [] := by
    intro hc
    apply hne
    have := chunksOf_flatten chw t.data
    rw [← hC, hc] at this
    simpa using this.symm
  have hscore : negDiceScore t t
      = -((C.map (fun a => 2 * (List.zipWith (· * ·) a a).sum
          / ((List.zipWith (· + ·) a a).sum + negDiceEps))).sum
        / ((C.map (fun a => 2 * (List.zipWith (· * ·) a a).sum
          / ((List.zipWith (· + ·) a a).sum + negDiceEps))).length : ℚ)) := by
    simp only [negDiceScore, ← hchw, ← hC, List.zipWith_same]
  have hterm : ∀ a ∈ C,
      1 - negDiceEps < 2 * (List.zipWith (· * ·) a a).sum
          / ((List.zipWith (· + ·) a a).sum + negDiceEps)
      ∧ 2 * (List.zipWith (· * ·) a a).sum
          / ((List.zipWith (· + ·) a a).sum + negDiceEps) < 1 := by
    intro a ha
    have habin : ∀ v ∈ a, v = 0 ∨ v = 1 :=
      fun v hv => hbin v (chunksOf_mem chw t.data a ha v hv)
    have hs : 1 ≤ a.sum := binary_mem_sum_ge_one a habin (hmask a ha)
    rw [binary_zipWith_mul_sum a habin, zipWith_add_self_sum a]
    exact dice_term_bounds a.sum hs
  have hmapne : C.map (fun a => 2 * (List.zipWith (· * ·) a a).sum
      / ((List.zipWith (· + ·) a a).sum + negDiceEps)) ≠ [] := by
    simpa using hCne
  have hmapb : ∀ v ∈ C.map (fun a => 2 * (List.zipWith (· * ·) a a).sum
      / ((List.zipWith (· + ·) a a).sum + negDiceEps)),
      1 - negDiceEps < v ∧ v < 1 := by
    intro v hv
    rcases List.mem_map.mp hv with ⟨a, ha, hva⟩
    subst hva
    exact hterm a ha
  have hm := mean_bounds _ hmapne (1 - negDiceEps) 1 hmapb
  refine ⟨hfwd, ?_, ?_⟩
  · rw [hscore]
    have := hm.2
    linarith
  · rw [hscore]
    have := hm.1
    linarith

/-- Witness for C7 (amended): a 1×1×2×2 binary mask with two foreground
pixels. -/
theorem negdice_identity_within_eps_witness :
    negDiceForward (.tensor ⟨[1, 1, 2, 2], "cpu", [1, 0, 0, 1]⟩)
        ⟨[1, 1, 2, 2], "cpu", [1, 0, 0, 1]⟩
      = .ok (negDiceScore ⟨[1, 1, 2, 2], "cpu", [1, 0, 0, 1]⟩
          ⟨[1, 1, 2, 2], "cpu", [1, 0, 0, 1]⟩)
    ∧ -1 < negDiceScore ⟨[1, 1, 2, 2], "cpu", [1, 0, 0, 1]⟩
        ⟨[1, 1, 2, 2], "cpu", [1, 0, 0, 1]⟩
    ∧ negDiceScore ⟨[1, 1, 2, 2], "cpu", [1, 0, 0, 1]⟩
        ⟨[1, 1, 2, 2], "cpu", [1, 0, 0, 1]⟩ < -1 + negDiceEps :=
  negdice_identity_within_eps_of_neg_one ⟨[1, 1, 2, 2], "cpu", [1, 0, 0, 1]⟩
    (by decide) (by decide) (by decide) (by decide)

/-! ## Hausdorff-style distances (`src/model/utils.py`)

The inputs are H×W binary masks (lists of rows of rationals); `argwhere`
collects the coordinates of the class-1 pixels in row-major order, as
`np.argwhere(v == 1)` does.  The pixel metric (`sklearn`'s
`pairwise_distances(..., metric=euclidean)`) is an external collaborator
and enters as the parameter `d`; `np.min(d, axis=0)` is the per-column
minimum over the first point set and `np.min(d, axis=1)` the per-row
minimum over the second.  The sentinel `max_ahd` (default `np.inf`) is
modelled by `WithTop ℚ`, whose `⊤` is the default infinity. -/

/-- Coordinates of the pixels equal to 1, in row-major order. -/
def argwhereOne (v : List (List ℚ)) : List (Nat × Nat) :=
  (v.enum.map (fun row =>
    row.2.enum.filterMap (fun p =>
      if p.2 = 1 then some (row.1, p.1) else none))).flatten

/-- Minimum of a non-empty list (first element as the initial fold value);
`0` on the empty list, which the callers never hit. -/
def minOver : List ℚ → ℚ
  | [] => 0
  | x :: xs => xs.foldl min x

/-- Maximum of a non-empty list, same convention. -/
def maxOver : List ℚ → ℚ
  | [] => 0
  | x :: xs => xs.foldl max x

/-- `np.mean` of a list. -/
def meanOver (l : List ℚ) : ℚ := l.sum / (l.length : ℚ)

/-- `hausdorff_distance` from `src/model/utils.py` (lines 93–117):
if either point set is empty return `max_ahd`, else
`max(max_j min_i d(i, j), max_i min_j d(i, j))`. -/
def hausdorff_distance (d : Nat × Nat → Nat × Nat → ℚ)
    (v1 v2 : List (List ℚ)) (max_ahd : WithTop ℚ) : WithTop ℚ :=
  let p1 := argwhereOne v1
  let p2 := argwhereOne v2
  if p1.length = 0 ∨ p2.length = 0 then max_ahd
  else
    let hd1 := maxOver (p2.map (fun b => minOver (p1.map (fun a => d a b))))
    let hd2 := maxOver (p1.map (fun a => minOver (p2.map (fun b => d a b))))
    ((max hd1 hd2 : ℚ) : WithTop ℚ)

/-- `average_hausdorff_distance` from `src/model/utils.py` (lines 120–144):
as above but with the mean of the directed minima in place of their
maximum. -/
def average_hausdorff_distance (d : Nat × Nat → Nat × Nat → ℚ)
    (v1 v2 : List (List ℚ)) (max_ahd : WithTop ℚ) : WithTop ℚ :=
  let p1 := argwhereOne v1
  let p2 := argwhereOne v2
  if p1.length = 0 ∨ p2.length = 0 then max_ahd
  else
    let hd1 := meanOver (p2.map (fun b => minOver (p1.map (fun a => d a b))))
    let hd2 := meanOver (p1.map (fun a => minOver (p2.map (fun b => d a b))))
    ((max hd1 hd2 : ℚ) : WithTop ℚ)

/-- C8: both Hausdorff-style distance functions return the sentinel
`max_ahd` (by default `⊤`, i.e. `+inf`) whenever either foreground point
set is empty — they are total functions, never raising an error — and on
two identical single-point foreground sets they both return `0` (for any
pixel metric vanishing on the diagonal, as the Euclidean metric does). -/
theorem hausdorff_empty_sentinel_and_identical_singleton
    (d : Nat × Nat → Nat × Nat → ℚ) (v1 v2 : List (List ℚ))
    (max_ahd : WithTop ℚ) :
    (argwhereOne v1 = [] ∨ argwhereOne v2 = [] →
      hausdorff_distance d v1 v2 max_ahd = max_ahd
        ∧ average_hausdorff_distance d v1 v2 max_ahd = max_ahd)
    ∧ (∀ p : Nat × Nat, argwhereOne v1 = [p] → argwhereOne v2 = [p] →
        d p p = 0 →
        hausdorff_distance d v1 v2 max_ahd = ((0 : ℚ) : WithTop ℚ)
          ∧ average_hausdorff_distance d v1 v2 max_ahd
              = ((0 : ℚ) : WithTop ℚ)) := by
  constructor
  · intro hempty
    have hlen : (argwhereOne v1).length = 0 ∨ (argwhereOne v2).length = 0 := by
      rcases hempty with h | h <;> [left; right] <;> simp [h]
    constructor
    · simp only [hausdorff_distance]
      rw [if_pos hlen]
    · simp only [average_hausdorff_distance]
      rw [if_pos hlen]
  · intro p h1 h2 hd
    have hlen : ¬((argwhereOne v1).length = 0 ∨ (argwhereOne v2).length = 0) := by
      simp [h1, h2]
    constructor
    · simp only [hausdorff_distance]
      rw [if_neg hlen]
      simp [h1, h2, minOver, maxOver, hd]
    · simp only [average_hausdorff_distance]
      rw [if_neg hlen]
      simp [h1, h2, minOver, meanOver, hd]

/-- Witness for C8: empty mask vs. a one-pixel mask hits the sentinel;
the same one-pixel mask against itself scores 0 under the squared
Euclidean pixel metric (which vanishes on the diagonal like the Euclidean
one). -/
theorem hausdorff_empty_sentinel_witness :
    (hausdorff_distance
        (fun a b => ((a.1 : ℚ) - b.1) ^ 2 + ((a.2 : ℚ) - b.2) ^ 2)
        [[0, 0], [0, 0]] [[0, 1], [0, 0]] ⊤ = ⊤
      ∧ average_hausdorff_distance
        (fun a b => ((a.1 : ℚ) - b.1) ^ 2 + ((a.2 : ℚ) - b.2) ^ 2)
        [[0, 0], [0, 0]] [[0, 1], [0, 0]] ⊤ = ⊤)
    ∧ (hausdorff_distance
        (fun a b => ((a.1 : ℚ) - b.1) ^ 2 + ((a.2 : ℚ) - b.2) ^ 2)
        [[0, 1], [0, 0]] [[0, 1], [0, 0]] ⊤ = ((0 : ℚ) : WithTop ℚ)
      ∧ average_hausdorff_distance
        (fun a b => ((a.1 : ℚ) - b.1) ^ 2 + ((a.2 : ℚ) - b.2) ^ 2)
        [[0, 1], [0, 0]] [[0, 1], [0, 0]] ⊤ = ((0 : ℚ) : WithTop ℚ)) := by
  have h := hausdorff_empty_sentinel_and_identical_singleton
      (fun a b => ((a.1 : ℚ) - b.1) ^ 2 + ((a.2 : ℚ) - b.2) ^ 2)
      [[0, 0], [0, 0]] [[0, 1], [0, 0]] ⊤
  have h2 := hausdorff_empty_sentinel_and_identical_singleton
      (fun a b => ((a.1 : ℚ) - b.1) ^ 2 + ((a.2 : ℚ) - b.2) ^ 2)
      [[0, 1], [0, 0]] [[0, 1], [0, 0]] ⊤
  refine ⟨h.1 (Or.inl ?_), h2.2 (0, 1) ?_ ?_ (by norm_num)⟩
  · decide
  · decide
  · decide

/-! ## Train phase of one epoch (`train_pipeline.py`, lines 130–173)

The network, the data and the metric evaluations are external to the loop
logic, so one batch of the epoch is modelled by the observation the loop
makes of it:
* `outVals` — the flattened values of `net(x)` for the batch (what
  `torch.min(out)` / `torch.max(out)` inspect);
* `nItems`  — `len(scans)`, the number of items in the batch;
* `mVals`   — the values `m_func(out, y).item()` of the registered metrics
  on this batch, in registry order (`BCELoss`, `NegDiceLoss`, `FocalLoss`).

The epoch-metrics dict cells `em[m_name][train][-1]` are modelled as a
function from registry slot to the running sum.  The loop is mirrored
faithfully: the out-of-range gate skips the rest of the iteration body
(`continue`) — no backward pass, no optimizer step, no accumulation —
otherwise every registered metric's cell gains `value * len(scans)`; after
the loop each cell is divided by the fixed `n_train` computed up front as
`len(indices_train) * (1 + aug_cnt)`. -/

structure BatchObs : Type where
  outVals : List ℚ
  nItems : Nat
  mVals : List ℚ
  deriving DecidableEq

/-- `min < 0 or max > 1` over the batch output, with `torch.min` /
`torch.max` as head-seeded folds (the tensors of the source are
non-empty). -/
def gateSkip (out : List ℚ) : Bool :=
  match out with
  | [] => false
  | x :: xs => decide (xs.foldl min x < 0) || decide (1 < xs.foldl max x)

/-- One pass of the train-phase loop over the batches, carrying the
per-metric running sums plus, for observability, the batches that reached
the optimizer step and the batches skipped with a warning. -/
def trainPhaseLoop : List BatchObs → (Nat → ℚ) → List BatchObs →
    List BatchObs → (Nat → ℚ) × List BatchObs × List BatchObs
  | [], sums, stepped, warned => (sums, stepped, warned)
  | b :: bs, sums, stepped, warned =>
      if gateSkip b.outVals then
        trainPhaseLoop bs sums stepped (warned ++ [b])
      else
        trainPhaseLoop bs
          (fun i => sums i + b.mVals.getD i 0 * (b.nItems : ℚ))
          (stepped ++ [b]) warned

/-- The train phase of one epoch: run the loop with every running sum
initialised to `0` (the freshly appended `em` cells), then divide every
cell by the fixed denominator `n_train`
(`m_dict[train][-1] /= n_train`). -/
def trainPhase (n_train : Nat) (batches : List BatchObs) :
    (Nat → ℚ) × List BatchObs × List BatchObs :=
  let r := trainPhaseLoop batches (fun _ => 0) [] []
  (fun i => r.1 i / (n_train : ℚ), r.2)

/-- Sum of `metric value × batch item count` for one registry slot over a
list of batches. -/
def metricSum (i : Nat) (bs : List BatchObs) : ℚ :=
  (bs.map (fun b => b.mVals.getD i 0 * (b.nItems : ℚ))).sum

/-- Total item count of a list of batches. -/
def itemCount (bs : List BatchObs) : Nat := (bs.map (·.nItems)).sum

theorem metricSum_cons (i : Nat) (b : BatchObs) (bs : List BatchObs) :
    metricSum i (b :: bs) = b.mVals.getD i 0 * (b.nItems : ℚ) + metricSum i bs := by
  simp [metricSum]

theorem trainPhaseLoop_spec :
    ∀ (batches : List BatchObs) (sums : Nat → ℚ) (stepped warned : List BatchObs),
      trainPhaseLoop batches sums stepped warned
        = (fun i => sums i
              + metricSum i (batches.filter (fun b => !gateSkip b.outVals)),
           stepped ++ batches.filter (fun b => !gateSkip b.outVals),
           warned ++ batches.filter (fun b => gateSkip b.outVals)) := by
  intro batches
  induction batches with
  | nil =>
      intro sums stepped warned
      simp [trainPhaseLoop, metricSum]
  | cons b bs ih =>
      intro sums stepped warned
      by_cases hg : gateSkip b.outVals
      · have h1 : trainPhaseLoop (b :: bs) sums stepped warned
            = trainPhaseLoop bs sums stepped (warned ++ [b]) := by
          simp [trainPhaseLoop, hg]
        rw [h1, ih]
        simp [List.filter_cons, hg]
      · have h1 : trainPhaseLoop (b :: bs) sums stepped warned
            = trainPhaseLoop bs
                (fun i => sums i + b.mVals.getD i 0 * (b.nItems : ℚ))
                (stepped ++ [b]) warned := by
          simp [trainPhaseLoop, hg]
        rw [h1, ih]
        rw [List.filter_cons_of_pos (by simp [hg])]
        simp only [Prod.mk.injEq]
        refine ⟨funext fun i => ?_, by simp, by simp [List.filter_cons, hg]⟩
        rw [metricSum_cons]
        ring

/-- C1 amended: in the train phase, a batch whose output has any value
outside `[0, 1]` is skipped — it is added to the warned list, reaches no
optimizer step and contributes nothing to any metric's running sum — but
the per-epoch training mean divides each running sum by the **fixed**
total `n_train = len(indices_train) * (1 + aug_cnt)` computed before the
loop, not by the processed item count: skipped items are excluded from
the numerator yet still counted in the denominator. -/
theorem train_phase_gate_and_fixed_denominator
    (n_train : Nat) (batches : List BatchObs) :
    (trainPhase n_train batches).2.1
        = batches.filter (fun b => !gateSkip b.outVals)
    ∧ (trainPhase n_train batches).2.2
        = batches.filter (fun b => gateSkip b.outVals)
    ∧ ∀ i, (trainPhase n_train batches).1 i
        = metricSum i (batches.filter (fun b => !gateSkip b.outVals))
            / (n_train : ℚ) := by
  have h := trainPhaseLoop_spec batches (fun _ => 0) [] []
  refine ⟨?_, ?_, ?_⟩
  · simp [trainPhase, h]
  · simp [trainPhase, h]
  · intro i
    simp [trainPhase, h]

/-- C1 counterexample: two one-item batches, the first with output `0` (in range)
and the second with out-of-range output value `2 > 1`.  The second batch is skipped, so the
processed item count is `1` and the running sum is `3`, but the epoch mean
computed by the code is `3 / n_train = 3/2`, not
`sum / processed = 3/1` — the claim's equality fails. -/
theorem train_mean_not_sum_over_processed :
    (trainPhase 2 [⟨[0], 1, [3]⟩, ⟨[2], 1, [5]⟩]).1 0 = 3 / 2
    ∧ (trainPhase 2 [⟨[0], 1, [3]⟩, ⟨[2], 1, [5]⟩]).2.1
        = [⟨[0], 1, [3]⟩]
    ∧ (trainPhase 2 [⟨[0], 1, [3]⟩, ⟨[2], 1, [5]⟩]).2.2
        = [⟨[2], 1, [5]⟩]
    ∧ itemCount ((trainPhase 2 [⟨[0], 1, [3]⟩, ⟨[2], 1, [5]⟩]).2.1) = 1
    ∧ metricSum 0 ((trainPhase 2 [⟨[0], 1, [3]⟩, ⟨[2], 1, [5]⟩]).2.1) = 3
    ∧ (3 : ℚ) / 2 ≠ 3 / 1 := by
  have hg1 : gateSkip [0] = false := by decide
  have hg2 : gateSkip [2] = true := by decide
  have h := train_phase_gate_and_fixed_denominator 2
      [⟨[0], 1, [3]⟩, ⟨[2], 1, [5]⟩]
  have hstep : (trainPhase 2 [⟨[0], 1, [3]⟩, ⟨[2], 1, [5]⟩]).2.1
      = [⟨[0], 1, [3]⟩] := by
    rw [h.1]
    simp [List.filter_cons, hg1, hg2]
  have hwarn : (trainPhase 2 [⟨[0], 1, [3]⟩, ⟨[2], 1, [5]⟩]).2.2
      = [⟨[2], 1, [5]⟩] := by
    rw [h.2.1]
    simp [List.filter_cons, hg1, hg2]
  refine ⟨?_, hstep, hwarn, ?_, ?_, by norm_num⟩
  · rw [h.2.2 0]
    simp [List.filter_cons, hg1, hg2]
    norm_num [metricSum]
  · rw [hstep]
    simp [itemCount]
  · rw [hstep]
    norm_num [metricSum]

/-! ## Epoch loop, early stopping and best-weight restoration
(`train_pipeline.py`, lines 92–228)

The weights and the data pipeline are external, so the loop is modelled
over an abstract weight type `W` with two collaborators:
* `step e w` — the effect of epoch `e`'s whole train phase (forward /
  backward / optimizer steps over all batches) on the parameters `w`;
* `validLoss w` — the designated loss's validation mean produced by
  `evaluate_net` for parameters `w` (validation is deterministic: unshuffled
  pass, no parameter update).

The loop state mirrors the Python locals: `best_loss_valid` (initially
`1e+30`), `best_epoch_ix` (initially `0`), `best_net_wts` (initially a
deep copy of the starting weights), the no-improvement counter `es_cnt`,
the `em[loss_name][valid]` series, and the current weights.  The code
fixes `es_tolerance = 0.0001` and `es_patience = 10`; the model takes them
as parameters and instantiates them at the source values where needed. -/

structure LoopState (W : Type) : Type where
  w : W
  bestLoss : ℚ
  bestEpoch : Nat
  bestWts : W
  esCnt : Nat
  emValid : List ℚ
  lastEpoch : Nat
  deriving DecidableEq

/-- The body of one epoch: train phase (`step`), validation
(`validLoss`), the `em` append, and the early-stopping bookkeeping
(`if em[loss_name][valid][-1] < best_loss_valid - es_tolerance`). -/
def epochBody (step : Nat → W → W) (validLoss : W → ℚ) (tol : ℚ)
    (e : Nat) (st : LoopState W) : LoopState W :=
  let wNew := step e st.w
  let v := validLoss wNew
  if v < st.bestLoss - tol then
    { w := wNew, bestLoss := v, bestEpoch := e, bestWts := wNew,
      esCnt := 0, emValid := st.emValid ++ [v], lastEpoch := e }
  else
    { w := wNew, bestLoss := st.bestLoss, bestEpoch := st.bestEpoch,
      bestWts := st.bestWts, esCnt := st.esCnt + 1,
      emValid := st.emValid ++ [v], lastEpoch := e }

/-- The epoch loop `for cur_epoch in range(1, n_epochs + 1)` with the
`break` on `es_cnt >= es_patience`, as a recursion over the remaining
epoch count. -/
def epochLoop (step : Nat → W → W) (validLoss : W → ℚ) (tol : ℚ)
    (patience : Nat) : Nat → Nat → LoopState W → LoopState W
  | 0, _, st => st
  | r + 1, e, st =>
      let stNew := epochBody step validLoss tol e st
      if patience ≤ stNew.esCnt then stNew
      else epochLoop step validLoss tol patience r (e + 1) stNew

/-- Result of `train`: the final state of the loop, the weights the
network holds after `net.load_state_dict(best_net_wts)`, and the contents
of the persisted `cp_..._best.pth` checkpoint (saved from
`net.state_dict()` after the restoration). -/
structure TrainResult (W : Type) : Type where
  st : LoopState W
  finalNet : W
  bestCheckpoint : W
  deriving DecidableEq

/-- The `train` driver of `train_pipeline.py`: run the epoch loop from
epoch 1 with the Python initial state, then restore the best weights into
the network and persist them as the best checkpoint. -/
def train (step : Nat → W → W) (validLoss : W → ℚ) (tol : ℚ)
    (patience n_epochs : Nat) (w0 : W) : TrainResult W :=
  let init : LoopState W :=
    { w := w0, bestLoss := 10 ^ 30, bestEpoch := 0, bestWts := w0,
      esCnt := 0, emValid := [], lastEpoch := 0 }
  let fin := epochLoop step validLoss tol patience n_epochs 1 init
  { st := fin, finalNet := fin.bestWts, bestCheckpoint := fin.bestWts }

/-- Iterated training effect: the weights the network holds after the
train phase of epoch `e` (the loop's only weight mutations). -/
def stepChain (step : Nat → W → W) (w0 : W) : Nat → W
  | 0 => w0
  | e + 1 => step (e + 1) (stepChain step w0 e)

/-- The loop invariant tying the early-stopping bookkeeping to the epoch
history: the no-improvement counter measures the distance to the best
epoch, the current weights are the iterated training effect, the best
weights are the snapshot of the best epoch, the recorded best loss is the
validation loss of that snapshot, and no recorded epoch beats the best
loss by more than the tolerance. -/
def LoopInv (step : Nat → W → W) (validLoss : W → ℚ) (tol : ℚ) (w0 : W)
    (st : LoopState W) : Prop :=
  st.esCnt + st.bestEpoch = st.lastEpoch
  ∧ st.w = stepChain step w0 st.lastEpoch
  ∧ st.bestWts = stepChain step w0 st.bestEpoch
  ∧ (1 ≤ st.bestEpoch → validLoss st.bestWts = st.bestLoss)
  ∧ (∀ v ∈ st.emValid, st.bestLoss ≤ v + tol)
  ∧ st.emValid.length = st.lastEpoch

theorem epochBody_esCnt (step : Nat → W → W) (validLoss : W → ℚ) (tol : ℚ)
    (e : Nat) (st : LoopState W) :
    (validLoss (step e st.w) < st.bestLoss - tol →
      (epochBody step validLoss tol e st).esCnt = 0)
    ∧ (¬ validLoss (step e st.w) < st.bestLoss - tol →
      (epochBody step validLoss tol e st).esCnt = st.esCnt + 1) := by
  constructor
  · intro hc
    simp [epochBody, hc]
  · intro hc
    simp [epochBody, hc]

theorem epochBody_inv (step : Nat → W → W) (validLoss : W → ℚ) (tol : ℚ)
    (w0 : W) (htol : 0 ≤ tol) (st : LoopState W)
    (hinv : LoopInv step validLoss tol w0 st) :
    LoopInv step validLoss tol w0
        (epochBody step validLoss tol (st.lastEpoch + 1) st)
    ∧ (epochBody step validLoss tol (st.lastEpoch + 1) st).lastEpoch
        = st.lastEpoch + 1 := by
  obtain ⟨h1, h2, h3, h4, h5, h6⟩ := hinv
  have hw : step (st.lastEpoch + 1) st.w
      = stepChain step w0 (st.lastEpoch + 1) := by
    rw [h2]; rfl
  by_cases hc : validLoss (step (st.lastEpoch + 1) st.w) < st.bestLoss - tol
  · have hb : epochBody step validLoss tol (st.lastEpoch + 1) st
        = { w := step (st.lastEpoch + 1) st.w,
            bestLoss := validLoss (step (st.lastEpoch + 1) st.w),
            bestEpoch := st.lastEpoch + 1,
            bestWts := step (st.lastEpoch + 1) st.w,
            esCnt := 0,
            emValid := st.emValid ++ [validLoss (step (st.lastEpoch + 1) st.w)],
            lastEpoch := st.lastEpoch + 1 } := by
      simp only [epochBody, if_pos hc]
    rw [hb]
    refine ⟨⟨?_, ?_, ?_, ?_, ?_, ?_⟩, rfl⟩
    · show 0 + (st.lastEpoch + 1) = st.lastEpoch + 1
      omega
    · exact hw
    · exact hw
    · exact fun _ => rfl
    · show ∀ v ∈ st.emValid ++ [validLoss (step (st.lastEpoch + 1) st.w)],
        validLoss (step (st.lastEpoch + 1) st.w) ≤ v + tol
      intro v hv
      rcases List.mem_append.mp hv with hv | hv
      · have := h5 v hv
        linarith
      · simp at hv
        subst hv
        linarith
    · show (st.emValid ++ [validLoss (step (st.lastEpoch + 1) st.w)]).length
        = st.lastEpoch + 1
      simp [h6]
  · have hb : epochBody step validLoss tol (st.lastEpoch + 1) st
        = { w := step (st.lastEpoch + 1) st.w,
            bestLoss := st.bestLoss,
            bestEpoch := st.bestEpoch,
            bestWts := st.bestWts,
            esCnt := st.esCnt + 1,
            emValid := st.emValid ++ [validLoss (step (st.lastEpoch + 1) st.w)],
            lastEpoch := st.lastEpoch + 1 } := by
      simp only [epochBody, if_neg hc]
    rw [hb]
    refine ⟨⟨?_, ?_, ?_, ?_, ?_, ?_⟩, rfl⟩
    · show st.esCnt + 1 + st.bestEpoch = st.lastEpoch + 1
      omega
    · exact hw
    · exact h3
    · exact h4
    · show ∀ v ∈ st.emValid ++ [validLoss (step (st.lastEpoch + 1) st.w)],
        st.bestLoss ≤ v + tol
      intro v hv
      rcases List.mem_append.mp hv with hv | hv
      · exact h5 v hv
      · simp at hv
        subst hv
        linarith
    · show (st.emValid ++ [validLoss (step (st.lastEpoch + 1) st.w)]).length
        = st.lastEpoch + 1
      simp [h6]

theorem epochLoop_inv (step : Nat → W → W) (validLoss : W → ℚ) (tol : ℚ)
    (patience : Nat) (w0 : W) (htol : 0 ≤ tol) :
    ∀ (r : Nat) (st : LoopState W), LoopInv step validLoss tol w0 st →
      LoopInv step validLoss tol w0
          (epochLoop step validLoss tol patience r (st.lastEpoch + 1) st)
      ∧ st.lastEpoch
          ≤ (epochLoop step validLoss tol patience r (st.lastEpoch + 1) st).lastEpoch
      ∧ (epochLoop step validLoss tol patience r (st.lastEpoch + 1) st).lastEpoch
          ≤ st.lastEpoch + r
      ∧ (st.esCnt < patience →
          (epochLoop step validLoss tol patience r (st.lastEpoch + 1) st).lastEpoch
              < st.lastEpoch + r →
          (epochLoop step validLoss tol patience r (st.lastEpoch + 1) st).esCnt
              = patience)
      ∧ (st.esCnt < patience →
          (epochLoop step validLoss tol patience r (st.lastEpoch + 1) st).esCnt
              ≤ patience) := by
  intro r
  induction r with
  | zero =>
      intro st hinv
      have h0 : epochLoop step validLoss tol patience 0 (st.lastEpoch + 1) st
          = st := rfl
      rw [h0]
      exact ⟨hinv, le_refl _, by omega, fun _ hlt => absurd hlt (by omega),
        fun hcnt => le_of_lt hcnt⟩
  | succ r ih =>
      intro st hinv
      have hbody := epochBody_inv step validLoss tol w0 htol st hinv
      have hcnt := epochBody_esCnt step validLoss tol (st.lastEpoch + 1) st
      have hcases : (epochBody step validLoss tol (st.lastEpoch + 1) st).esCnt = 0
          ∨ (epochBody step validLoss tol (st.lastEpoch + 1) st).esCnt
              = st.esCnt + 1 := by
        by_cases hc : validLoss (step (st.lastEpoch + 1) st.w) < st.bestLoss - tol
        · exact Or.inl (hcnt.1 hc)
        · exact Or.inr (hcnt.2 hc)
      have hloop : epochLoop step validLoss tol patience (r + 1)
            (st.lastEpoch + 1) st
          = if patience ≤ (epochBody step validLoss tol (st.lastEpoch + 1) st).esCnt
            then epochBody step validLoss tol (st.lastEpoch + 1) st
            else epochLoop step validLoss tol patience r (st.lastEpoch + 1 + 1)
              (epochBody step validLoss tol (st.lastEpoch + 1) st) := rfl
      by_cases hstop : patience
          ≤ (epochBody step validLoss tol (st.lastEpoch + 1) st).esCnt
      · rw [hloop, if_pos hstop]
        refine ⟨hbody.1, by omega, by omega, fun hlt _ => by omega,
          fun hlt => by omega⟩
      · rw [hloop, if_neg hstop]
        have hrec := ih (epochBody step validLoss tol (st.lastEpoch + 1) st) hbody.1
        rw [hbody.2] at hrec
        refine ⟨hrec.1, by omega, by omega, ?_, ?_⟩
        · intro hlt hfin
          exact hrec.2.2.2.1 (by omega) (by omega)
        · intro hlt
          exact hrec.2.2.2.2 (by omega)

theorem train_inv (step : Nat → W → W) (validLoss : W → ℚ) (tol : ℚ)
    (patience n_epochs : Nat) (w0 : W) (htol : 0 ≤ tol) :
    LoopInv step validLoss tol w0
        (train step validLoss tol patience n_epochs w0).st
    ∧ (train step validLoss tol patience n_epochs w0).st.lastEpoch ≤ n_epochs
    ∧ (0 < patience →
        (train step validLoss tol patience n_epochs w0).st.lastEpoch < n_epochs →
        (train step validLoss tol patience n_epochs w0).st.esCnt = patience)
    ∧ (0 < patience →
        (train step validLoss tol patience n_epochs w0).st.esCnt ≤ patience) := by
  set init : LoopState W :=
    { w := w0, bestLoss := 10 ^ 30, bestEpoch := 0, bestWts := w0,
      esCnt := 0, emValid := [], lastEpoch := 0 } with hinitdef
  have hinit : LoopInv step validLoss tol w0 init :=
    ⟨rfl, rfl, rfl, fun h => absurd h (by norm_num), by simp [hinitdef], rfl⟩
  have h := epochLoop_inv step validLoss tol patience w0 htol n_epochs init hinit
  have htr : (train step validLoss tol patience n_epochs w0).st
      = epochLoop step validLoss tol patience n_epochs (init.lastEpoch + 1) init :=
    rfl
  have hl0 : init.lastEpoch = 0 := rfl
  have he0 : init.esCnt = 0 := rfl
  rw [htr]
  refine ⟨h.1, ?_, ?_, ?_⟩
  · have hb := h.2.2.1
    omega
  · intro hpat hlt
    exact h.2.2.2.1 (by omega) (by omega)
  · intro hpat
    exact h.2.2.2.2 (by omega)

/-- C3: the early-stopping state machine.  The loop never exceeds the
epoch budget; whenever it terminates before the budget is exhausted — the
only other termination path — it does so with the no-improvement counter
at the patience threshold, at epoch `best_epoch + patience`; and the
counter resets to zero exactly on an improvement beyond the tolerance,
incrementing by one otherwise. -/
theorem early_stopping_at_best_epoch_plus_patience
    (step : Nat → W → W) (validLoss : W → ℚ) (tol : ℚ)
    (patience n_epochs : Nat) (w0 : W)
    (htol : 0 ≤ tol) (hpat : 1 ≤ patience) :
    (train step validLoss tol patience n_epochs w0).st.lastEpoch ≤ n_epochs
    ∧ ((train step validLoss tol patience n_epochs w0).st.lastEpoch < n_epochs →
        (train step validLoss tol patience n_epochs w0).st.esCnt = patience
        ∧ (train step validLoss tol patience n_epochs w0).st.lastEpoch
            = (train step validLoss tol patience n_epochs w0).st.bestEpoch
              + patience)
    ∧ (train step validLoss tol patience n_epochs w0).st.lastEpoch
        ≤ (train step validLoss tol patience n_epochs w0).st.bestEpoch + patience
    ∧ (∀ (e : Nat) (st : LoopState W),
        (validLoss (step e st.w) < st.bestLoss - tol →
          (epochBody step validLoss tol e st).esCnt = 0)
        ∧ (¬ validLoss (step e st.w) < st.bestLoss - tol →
          (epochBody step validLoss tol e st).esCnt = st.esCnt + 1)) := by
  have h := train_inv step validLoss tol patience n_epochs w0 htol
  have hsum := h.1.1
  refine ⟨h.2.1, ?_, ?_, fun e st => epochBody_esCnt step validLoss tol e st⟩
  · intro hlt
    have hcnt := h.2.2.1 (by omega) hlt
    exact ⟨hcnt, by omega⟩
  · have hle := h.2.2.2 (by omega)
    omega

/-- C2 amended: after the loop the network is restored to the recorded
best snapshot — the deep copy taken at the last epoch whose validation
loss improved the running best by **more than the tolerance** — and the
persisted best checkpoint holds exactly those parameters.  The restored
snapshot's validation loss exceeds no recorded epoch's validation loss by
more than the tolerance (but an epoch within the tolerance of the best
may be strictly better, so the returned model is only tolerance-optimal,
not exactly optimal). -/
theorem best_weights_restored_and_checkpointed
    (step : Nat → W → W) (validLoss : W → ℚ) (tol : ℚ)
    (patience n_epochs : Nat) (w0 : W) (htol : 0 ≤ tol) :
    (train step validLoss tol patience n_epochs w0).finalNet
        = (train step validLoss tol patience n_epochs w0).st.bestWts
    ∧ (train step validLoss tol patience n_epochs w0).bestCheckpoint
        = (train step validLoss tol patience n_epochs w0).st.bestWts
    ∧ (train step validLoss tol patience n_epochs w0).st.bestWts
        = stepChain step w0
            (train step validLoss tol patience n_epochs w0).st.bestEpoch
    ∧ (1 ≤ (train step validLoss tol patience n_epochs w0).st.bestEpoch →
        validLoss (train step validLoss tol patience n_epochs w0).st.bestWts
          = (train step validLoss tol patience n_epochs w0).st.bestLoss)
    ∧ (∀ v ∈ (train step validLoss tol patience n_epochs w0).st.emValid,
        (train step validLoss tol patience n_epochs w0).st.bestLoss ≤ v + tol) := by
  have h := train_inv step validLoss tol patience n_epochs w0 htol
  exact ⟨rfl, rfl, h.1.2.2.1, h.1.2.2.2.1, h.1.2.2.2.2.1⟩

/-- Concrete training-effect collaborator: the parameters after epoch `e`
are just `e`. -/
def stepC (e : Nat) (_ : Nat) : Nat := e

/-- Concrete validation collaborator for the tolerance counterexample:
epoch 1's parameters score `1`, epoch 2's score `19999/20000` — better,
but by less than the tolerance `1/10000`. -/
def validC2 (w : Nat) : ℚ := if w = 2 then 19999 / 20000 else 1

/-- Concrete validation collaborator with ever-worsening scores. -/
def validC3 (w : Nat) : ℚ := (w : ℚ)

/-- C2 counterexample: with the source's tolerance `0.0001` and patience
`10`, validation losses `[1, 19999/20000]` over two epochs.  Epoch 2 has
the lowest recorded validation loss, but its improvement is within the
tolerance, so the restored network and the best checkpoint hold epoch 1's
parameters, and the returned model is strictly worse (loss `1`) than
epoch 2 (`19999/20000`) — the claim fails as stated. -/
theorem best_restore_not_argmin :
    (train stepC validC2 (1 / 10000) 10 2 0).st.emValid = [1, 19999 / 20000]
    ∧ ((19999 : ℚ) / 20000 < 1)
    ∧ stepChain stepC 0 2 = 2
    ∧ (train stepC validC2 (1 / 10000) 10 2 0).finalNet = 1
    ∧ (train stepC validC2 (1 / 10000) 10 2 0).bestCheckpoint = 1
    ∧ validC2 ((train stepC validC2 (1 / 10000) 10 2 0).finalNet) = 1
    ∧ validC2 (stepChain stepC 0 2) = 19999 / 20000 := by
  have htrain : train stepC validC2 (1 / 10000) 10 2 0
      = { st := { w := 2, bestLoss := 1, bestEpoch := 1, bestWts := 1,
                  esCnt := 1, emValid := [1, 19999 / 20000], lastEpoch := 2 },
          finalNet := 1, bestCheckpoint := 1 } := by
    norm_num [train, epochLoop, epochBody, stepC, validC2]
  rw [htrain]
  refine ⟨rfl, by norm_num, rfl, rfl, rfl, by norm_num [validC2], by norm_num [stepChain, stepC, validC2]⟩

/-- Witness for C2 (amended) at the concrete two-epoch run. -/
theorem best_weights_restored_witness :
    (train stepC validC2 (1 / 10000) 10 2 0).finalNet
        = (train stepC validC2 (1 / 10000) 10 2 0).st.bestWts
    ∧ (train stepC validC2 (1 / 10000) 10 2 0).st.bestLoss
        ≤ 19999 / 20000 + 1 / 10000 := by
  have h := best_weights_restored_and_checkpointed stepC validC2 (1 / 10000)
      10 2 0 (by norm_num)
  have hem : (train stepC validC2 (1 / 10000) 10 2 0).st.emValid
      = [1, 19999 / 20000] := by
    norm_num [train, epochLoop, epochBody, stepC, validC2]
  refine ⟨h.1, h.2.2.2.2 (19999 / 20000) ?_⟩
  rw [hem]
  simp

/-- Witness for C3: worsening losses with patience 2 stop the ten-epoch
budget at epoch `best_epoch + 2 = 3`. -/
theorem early_stopping_witness :
    (train stepC validC3 (1 / 10000) 2 10 0).st.lastEpoch
        = (train stepC validC3 (1 / 10000) 2 10 0).st.bestEpoch + 2
    ∧ (train stepC validC3 (1 / 10000) 2 10 0).st.lastEpoch < 10
    ∧ (train stepC validC3 (1 / 10000) 2 10 0).st.lastEpoch = 3 := by
  have h := early_stopping_at_best_epoch_plus_patience stepC validC3
      (1 / 10000) 2 10 0 (by norm_num) (by norm_num)
  have heval : (train stepC validC3 (1 / 10000) 2 10 0).st.lastEpoch = 3 := by
    norm_num [train, epochLoop, epochBody, stepC, validC3]
  refine ⟨(h.2.1 (by rw [heval]; norm_num)).2, by rw [heval]; norm_num, heval⟩

end LungsSeg








